import Mathlib

/-!
Shallow embedding of the task-queue and pipeline orchestrator of the
repository (src/db.py, src/main.py, src/services.py, src/worker.py).

The SQLite tables of db.py become Lean structures and each db.py function
becomes a pure function on the database value.  The FastAPI endpoint
translate_video, the payment callback and the background loop worker of
main.py become state transformers, and the interleaving of submissions,
top-ups and the worker loop within one worker context is a small-step
relation.  Timestamps (CURRENT_TIMESTAMP, one second resolution) are
modelled as Nat values that never decrease along a run.  SQLite makes no
promise about the relative order of rows with equal ORDER BY keys, so
get_next_task is modelled as a relation admitting every queued row of
minimal created_at.  The five stage adapters of services.py compute their
output paths exactly as the source does; whether an adapter call fails,
and the externally produced data (transcript, detected language,
translated text), are parameters gathered in a StageEnv.
-/

deriving instance DecidableEq for Except

namespace Backand

/-- Row of the users table of db.py (id, telegram_id, code, plan,
minutes_left, video_credits; active_tasks is never read or written by any
function of the repository and is omitted). -/
structure User where
  id : Nat
  telegram_id : Option String
  code : String
  plan : String
  minutes_left : Int
  video_credits : Int
deriving DecidableEq, Repr

/-- Row of the tasks table of db.py. -/
structure Task where
  id : Nat
  user_id : Nat
  status : String
  video_path : String
  result_path : Option String
  language : String
  created_at : Nat
deriving DecidableEq, Repr

/-- The SQLite database of db.py: the two tables and the AUTOINCREMENT
counter for tasks. -/
structure DB where
  users : List User
  tasks : List Task
  nextTaskId : Nat
deriving DecidableEq, Repr

/-- db.py get_user_by_code: first users row with the given code. -/
def get_user_by_code (db : DB) (code : String) : Option User :=
  db.users.find? (fun u => u.code == code)

/-- The SELECT by id performed inside db.py add_task. -/
def get_user_by_id (db : DB) (uid : Nat) : Option User :=
  db.users.find? (fun u => u.id == uid)

/-- db.py decrease_minutes: UPDATE users SET minutes_left = minutes_left - m
WHERE id = uid (a silent no-op when no row matches). -/
def decrease_minutes (db : DB) (uid : Nat) (m : Int) : DB :=
  { db with
    users := db.users.map fun u =>
      if u.id = uid then { u with minutes_left := u.minutes_left - m } else u }

/-- db.py decrease_video_credits: UPDATE users SET video_credits =
video_credits - c WHERE id = uid. -/
def decrease_video_credits (db : DB) (uid : Nat) (c : Int) : DB :=
  { db with
    users := db.users.map fun u =>
      if u.id = uid then { u with video_credits := u.video_credits - c } else u }

/-- The queued row INSERTed by db.py add_task, stamped with the current
time and the next AUTOINCREMENT id. -/
def newTask (db : DB) (uid : Nat) (video_path language : String) (now : Nat) : Task :=
  { id := db.nextTaskId, user_id := uid, status := "queued",
    video_path := video_path, result_path := none,
    language := language, created_at := now }

/-- db.py add_task: refuse (return None) unless the user exists and has
video_credits > 0; otherwise INSERT a queued task stamped with the current
time, decrement one credit, and return the new rowid. -/
def add_task (db : DB) (uid : Nat) (video_path language : String) (now : Nat) :
    Option Nat × DB :=
  match get_user_by_id db uid with
  | none => (none, db)
  | some u =>
    if u.video_credits ≤ 0 then (none, db)
    else
      let db1 : DB :=
        { db with tasks := db.tasks ++ [newTask db uid video_path language now],
                  nextTaskId := db.nextTaskId + 1 }
      (some db.nextTaskId, decrease_video_credits db1 uid 1)

/-- db.py get_next_task runs SELECT ... WHERE status = queued ORDER BY
created_at LIMIT 1.  SQLite leaves the relative order of rows with equal
created_at unspecified, so the query is embedded as the set of rows it may
return: any queued row whose created_at is minimal among queued rows. -/
def get_next_possible (db : DB) (t : Task) : Prop :=
  t ∈ db.tasks ∧ t.status = "queued" ∧
    ∀ u ∈ db.tasks, u.status = "queued" → t.created_at ≤ u.created_at

instance (db : DB) (t : Task) : Decidable (get_next_possible db t) := by
  unfold get_next_possible; infer_instance

/-- Python truthiness of the result_path argument of update_task_status
(None and the empty string are falsy). -/
def truthy : Option String → Bool
  | none => false
  | some s => s != ""

/-- db.py update_task_status: when result_path is truthy, one UPDATE writes
status and result_path together; otherwise only status is written. -/
def update_task_status (db : DB) (tid : Nat) (status : String)
    (result_path : Option String) : DB :=
  if truthy result_path then
    { db with
      tasks := db.tasks.map fun t =>
        if t.id = tid then { t with status := status, result_path := result_path }
        else t }
  else
    { db with
      tasks := db.tasks.map fun t =>
        if t.id = tid then { t with status := status } else t }

/-- db.py get_task_by_id, restricted to the status field. -/
def statusOf (db : DB) (tid : Nat) : Option String :=
  (db.tasks.find? (fun t => t.id == tid)).map Task.status

/-- Row lookup restricted to the created_at field. -/
def createdOf (db : DB) (tid : Nat) : Option Nat :=
  (db.tasks.find? (fun t => t.id == tid)).map Task.created_at

/-- Row lookup restricted to the result_path field. -/
def resultPathOf (db : DB) (tid : Nat) : Option (Option String) :=
  (db.tasks.find? (fun t => t.id == tid)).map Task.result_path

/-! Stage adapters (src/services.py, and transcribe_audio_remote of
src/main.py).  Every adapter either fails (the RuntimeError re-raise) or
returns an output path computed from its input path exactly as the source
does; the failure oracle and the external data live in a StageEnv. -/

def UPLOAD_DIR : String := "/tmp/uploads"

def AUDIO_DIR : String := "audio_files"

def FINAL_DIR : String := "final_videos"

/-- os.path.basename: the part of the path after the last slash. -/
def basenameOf (p : String) : String :=
  String.mk (p.data.reverse.takeWhile (fun c => c != '/')).reverse

/-- os.path.splitext applied after basename, first component: the
basename with the suffix starting at its last dot removed (a basename
with no dot is returned unchanged). -/
def stemOf (p : String) : String :=
  let b := (basenameOf p).data
  if '.' ∈ b then
    String.mk ((b.reverse.dropWhile (fun c => c != '.')).drop 1).reverse
  else String.mk b

/-- External behaviour of the five stage adapters: which calls fail, and
the data produced by the transcription and translation services. -/
structure StageEnv where
  extract_fails : String → Bool
  transcribe_result : String → Except String (String × String)
  translate_result : String → String → String → Except String String
  tts_fails : String → String → Bool
  assemble_fails : String → String → Bool

/-- services.py extract_audio: writes AUDIO_DIR/<stem>.mp3 or raises. -/
def extract_audio (env : StageEnv) (video_path : String) : Except String String :=
  if env.extract_fails video_path then Except.error "Audio extraction failed"
  else Except.ok (AUDIO_DIR ++ "/" ++ stemOf video_path ++ ".mp3")

/-- main.py transcribe_audio_remote: returns (text, language) from the
remote service or raises. -/
def transcribe_audio_remote (env : StageEnv) (audio_path : String) :
    Except String (String × String) :=
  env.transcribe_result audio_path

/-- services.py translate_text: returns the translated text or raises. -/
def translate_text (env : StageEnv) (text source_language_code target_language : String) :
    Except String String :=
  env.translate_result text source_language_code target_language

/-- services.py generate_cloned_audio: writes AUDIO_DIR/dubbed_<stem>.mp3
(stem of the source audio path) or raises. -/
def generate_cloned_audio (env : StageEnv) (translated_text source_audio_path : String) :
    Except String String :=
  if env.tts_fails translated_text source_audio_path then
    Except.error "ElevenLabs TTS failed"
  else Except.ok (AUDIO_DIR ++ "/dubbed_" ++ stemOf source_audio_path ++ ".mp3")

/-- services.py assemble_video: writes FINAL_DIR/dubbed_<stem>.mp4 (stem of
the video path) or raises. -/
def assemble_video (env : StageEnv) (video_path dubbed_audio_path : String) :
    Except String String :=
  if env.assemble_fails video_path dubbed_audio_path then
    Except.error "Video assembly failed"
  else Except.ok (FINAL_DIR ++ "/dubbed_" ++ stemOf video_path ++ ".mp4")

/-- The five-stage try-block body of the worker loop of main.py, together
with the list of artifact files written before control left the block:
an exception in any stage aborts the sequence there. -/
def runPipelineW (env : StageEnv) (video_path language : String) :
    Except String String × List String :=
  match extract_audio env video_path with
  | Except.error e => (Except.error e, [])
  | Except.ok audio_path =>
    match transcribe_audio_remote env audio_path with
    | Except.error e => (Except.error e, [audio_path])
    | Except.ok ts =>
      match translate_text env ts.1 ts.2 language with
      | Except.error e => (Except.error e, [audio_path])
      | Except.ok translated_text =>
        match generate_cloned_audio env translated_text audio_path with
        | Except.error e => (Except.error e, [audio_path])
        | Except.ok dubbed_audio =>
          match assemble_video env video_path dubbed_audio with
          | Except.error e => (Except.error e, [audio_path, dubbed_audio])
          | Except.ok final_video =>
            (Except.ok final_video, [audio_path, dubbed_audio, final_video])

/-- Whether the pipeline body raised. -/
def isErr : Except String String → Bool
  | Except.error _ => true
  | Except.ok _ => false

/-! The system state: the database, the phase of the single worker loop
started by the startup hook of main.py (idle between iterations, or busy
with the snapshot dict returned by get_next_task), the set of files on
disk, and the wall clock feeding CURRENT_TIMESTAMP. -/

/-- Phase of the worker loop of main.py. -/
inductive Phase where
  | idle
  | busy (t : Task)
deriving DecidableEq, Repr

/-- Whole-system state for one worker context. -/
structure Sys where
  db : DB
  phase : Phase
  storage : List String
  clock : Nat
deriving DecidableEq, Repr

/-- Result of the /translate endpoint of main.py: either the JSON error
for a failed limit check, or a task_id field (null when add_task refused). -/
inductive SubmitResult where
  | limitReached
  | taskId (id : Option Nat)
deriving DecidableEq, Repr

/-- main.py translate_video: reject with the limit error unless the code
resolves to a user with minutes_left > 0; otherwise write the uploaded
file under UPLOAD_DIR (fname stands for the generated uuid4 stem) and call
add_task, returning whatever task id it produced. -/
def translate_video (s : Sys) (code fname target_language : String) (now : Nat) :
    SubmitResult × Sys :=
  match get_user_by_code s.db code with
  | none => (SubmitResult.limitReached, s)
  | some user =>
    if user.minutes_left ≤ 0 then (SubmitResult.limitReached, s)
    else
      let video_path := UPLOAD_DIR ++ "/" ++ fname ++ ".mp4"
      let s1 : Sys := { s with storage := s.storage ++ [video_path] }
      let r := add_task s1.db user.id video_path target_language now
      (SubmitResult.taskId r.1, { s1 with db := r.2 })

/-- main.py cryptomus_callback with status == success: credit the account
by SUBSCRIPTION_CREDITS minutes (a non-negative amount read from the
environment) via a negative decrease_minutes. -/
def cryptomus_callback (s : Sys) (code : String) (subscription_credits : Nat) : Sys :=
  match get_user_by_code s.db code with
  | none => s
  | some user =>
    { s with db := decrease_minutes s.db user.id (-(subscription_credits : Int)) }

/-- One worker-loop iteration tail of main.py after the pipeline returns:
on success mark done with the final path and decrement one minute, on an
exception mark error; either way record the files written meanwhile and
return to the top of the loop. -/
def finishSys (env : StageEnv) (s : Sys) (t : Task) : Sys :=
  match (runPipelineW env t.video_path t.language).1 with
  | Except.ok final_video =>
    { s with
      db := decrease_minutes
        (update_task_status s.db t.id "done" (some final_video)) t.user_id 1,
      phase := Phase.idle,
      storage := s.storage ++ (runPipelineW env t.video_path t.language).2 }
  | Except.error _ =>
    { s with
      db := update_task_status s.db t.id "error" none,
      phase := Phase.idle,
      storage := s.storage ++ (runPipelineW env t.video_path t.language).2 }

/-- Small-step relation over one worker context: concurrent submissions
and administrative top-ups (enabled by tu) interleave with the worker
loop.  The claim of a task (get_next_task followed immediately, with no
intervening await, by the processing write) is one step; the awaited
pipeline stages and the finalisation are a second step, so other steps
may interleave while the claimed job is processing.  Submission
timestamps never decrease, matching CURRENT_TIMESTAMP. -/
inductive Step (env : StageEnv) (tu : Bool) : Sys → Sys → Prop where
  | submit (s : Sys) (code fname lang : String) (now : Nat) :
      s.clock ≤ now →
      Step env tu s { (translate_video s code fname lang now).2 with clock := now }
  | claim (s : Sys) (t : Task) :
      s.phase = Phase.idle →
      get_next_possible s.db t →
      Step env tu s
        { s with db := update_task_status s.db t.id "processing" none,
                 phase := Phase.busy t }
  | finish (s : Sys) (t : Task) :
      s.phase = Phase.busy t →
      Step env tu s (finishSys env s t)
  | topup (s : Sys) (code : String) (credits : Nat) :
      tu = true →
      Step env tu s (cryptomus_callback s code credits)

/-- Reachability: any finite interleaving of steps. -/
def Reachable (env : StageEnv) (tu : Bool) : Sys → Sys → Prop :=
  Relation.ReflTransGen (Step env tu)

/-- Initial states of one worker context: no tasks yet, worker idle,
non-negative credit balances, distinct user ids. -/
def Initial (s : Sys) : Prop :=
  s.db.tasks = [] ∧ s.phase = Phase.idle ∧
    (s.db.users.map User.id).Nodup ∧
    ∀ u ∈ s.db.users, 0 ≤ u.video_credits

instance (s : Sys) : Decidable (Initial s) := by
  unfold Initial; infer_instance

/-! Observation helpers used by the claims. -/

/-- Number of tasks owned by a user. -/
def countTasksOf (db : DB) (uid : Nat) : Nat :=
  (db.tasks.filter fun t => t.user_id == uid).length

/-- Number of done tasks owned by a user. -/
def countDoneOf (db : DB) (uid : Nat) : Nat :=
  (db.tasks.filter fun t => t.user_id == uid && t.status == "done").length

/-- Number of tasks currently in processing. -/
def countProcessing (db : DB) : Nat :=
  (db.tasks.filter fun t => t.status == "processing").length

/-! The standalone drain loop of src/worker.py.  Its shape is identical to
the loop of main.py except for stage 2: worker.py line 44 evaluates
translate_text.transcribe(audio), and translate_text is a plain function
with no transcribe attribute, so the expression raises AttributeError on
every input regardless of the stage adapters. -/

/-- The expression translate_text.transcribe(audio) of worker.py: an
unconditional AttributeError. -/
def translate_text_transcribe (_audio_path : String) :
    Except String (String × String) :=
  Except.error "AttributeError: function object has no attribute transcribe"

/-- The five-stage try-block body of the worker loop of worker.py, with
the artifact files written before control left the block. -/
def runPipelineStandaloneW (env : StageEnv) (video_path language : String) :
    Except String String × List String :=
  match extract_audio env video_path with
  | Except.error e => (Except.error e, [])
  | Except.ok audio_path =>
    match translate_text_transcribe audio_path with
    | Except.error e => (Except.error e, [audio_path])
    | Except.ok ts =>
      match translate_text env ts.1 ts.2 language with
      | Except.error e => (Except.error e, [audio_path])
      | Except.ok translated_text =>
        match generate_cloned_audio env translated_text audio_path with
        | Except.error e => (Except.error e, [audio_path])
        | Except.ok dubbed_audio =>
          match assemble_video env video_path dubbed_audio with
          | Except.error e => (Except.error e, [audio_path, dubbed_audio])
          | Except.ok final_video =>
            (Except.ok final_video, [audio_path, dubbed_audio, final_video])

/-- One worker-loop iteration tail of worker.py after its pipeline
returns, mirroring finishSys. -/
def finishSysStandalone (env : StageEnv) (s : Sys) (t : Task) : Sys :=
  match (runPipelineStandaloneW env t.video_path t.language).1 with
  | Except.ok final_video =>
    { s with
      db := decrease_minutes
        (update_task_status s.db t.id "done" (some final_video)) t.user_id 1,
      phase := Phase.idle,
      storage := s.storage ++ (runPipelineStandaloneW env t.video_path t.language).2 }
  | Except.error _ =>
    { s with
      db := update_task_status s.db t.id "error" none,
      phase := Phase.idle,
      storage := s.storage ++ (runPipelineStandaloneW env t.video_path t.language).2 }

/-! Concrete stage environments and concrete runs used to exercise the
definitions. -/

/-- Stage environment in which every adapter call succeeds, with fixed
transcription and translation data. -/
def env0 : StageEnv :=
  { extract_fails := fun _ => false,
    transcribe_result := fun _ => Except.ok ("hello world", "en"),
    translate_result := fun _ _ _ => Except.ok "bonjour le monde",
    tts_fails := fun _ _ => false,
    assemble_fails := fun _ _ => false }

/-- Stage environment in which stage 1 (audio extraction) fails. -/
def envFail : StageEnv :=
  { env0 with extract_fails := fun _ => true }

/-- Demonstration account: 1 minute left, 2 submission credits. -/
def user9 : User :=
  { id := 1, telegram_id := none, code := "U1", plan := "free",
    minutes_left := 1, video_credits := 2 }

/-- Start state of the demonstration runs. -/
def init9 : Sys :=
  { db := { users := [user9], tasks := [], nextTaskId := 1 },
    phase := Phase.idle, storage := [], clock := 0 }

/-- init9 after submitting video a. -/
def s9a : Sys := { (translate_video init9 "U1" "a" "fr" 0).2 with clock := 0 }

/-- s9a after submitting video b within the same second. -/
def s9b : Sys := { (translate_video s9a "U1" "b" "fr" 0).2 with clock := 0 }

/-- Snapshot of the first queued task. -/
def t9a : Task :=
  { id := 1, user_id := 1, status := "queued",
    video_path := "/tmp/uploads/a.mp4", result_path := none,
    language := "fr", created_at := 0 }

/-- Snapshot of the second queued task. -/
def t9b : Task :=
  { id := 2, user_id := 1, status := "queued",
    video_path := "/tmp/uploads/b.mp4", result_path := none,
    language := "fr", created_at := 0 }

/-- s9b after the worker claims task 1. -/
def s9c : Sys :=
  { s9b with db := update_task_status s9b.db t9a.id "processing" none,
             phase := Phase.busy t9a }

/-- s9c after the pipeline for task 1 succeeds. -/
def s9d : Sys := finishSys env0 s9c t9a

/-- s9d after the worker claims task 2. -/
def s9e : Sys :=
  { s9d with db := update_task_status s9d.db t9b.id "processing" none,
             phase := Phase.busy t9b }

/-- s9e after the pipeline for task 2 succeeds: the account is overdrawn. -/
def s9f : Sys := finishSys env0 s9e t9b

/-- s9b after the worker claims task 2 first: both queued rows carry the
same one-second-resolution timestamp, so SQLite may return either one. -/
def sC2 : Sys :=
  { s9b with db := update_task_status s9b.db t9b.id "processing" none,
             phase := Phase.busy t9b }

/-- An account with no submission credits but positive minutes. -/
def user3 : User :=
  { id := 1, telegram_id := none, code := "U3", plan := "free",
    minutes_left := 3, video_credits := 0 }

/-- Start state for the credit-exhausted submission run. -/
def init3 : Sys :=
  { db := { users := [user3], tasks := [], nextTaskId := 1 },
    phase := Phase.idle, storage := [], clock := 0 }

/-! Auxiliary list lemmas used by the invariant proofs. -/

lemma map_task_id_of_preserve (l : List Task) (g : Task → Task)
    (hg : ∀ x, (g x).id = x.id) :
    (l.map g).map Task.id = l.map Task.id := by
  rw [List.map_map]
  exact List.map_congr_left (fun a _ => hg a)

lemma filter_length_map_congr (l : List Task) (g : Task → Task) (p : Task → Bool)
    (h : ∀ x ∈ l, p (g x) = p x) :
    ((l.map g).filter p).length = (l.filter p).length := by
  induction l with
  | nil => rfl
  | cons a l ih =>
    have ha := h a (List.mem_cons_self a l)
    have ih' := ih (fun x hx => h x (List.mem_cons_of_mem a hx))
    cases hpa : p a <;>
      simp [List.filter_cons, ha, hpa, ih']

lemma filter_length_map_update (l : List Task) (r : Task) (g : Task → Task)
    (p : Task → Bool)
    (hm : r ∈ l) (hn : (l.map Task.id).Nodup)
    (hg : ∀ x, x.id ≠ r.id → g x = x)
    (hp : p r = false) (hq : p (g r) = true) :
    ((l.map g).filter p).length = (l.filter p).length + 1 := by
  obtain ⟨l1, l2, hl⟩ := List.append_of_mem hm
  subst hl
  have hnd : (l1 ++ r :: l2).Nodup := hn.of_map
  have hr1 : r ∉ l1 := by
    intro hin
    exact (List.nodup_append.mp hnd).2.2 hin (List.mem_cons_self r l2)
  have hr2 : r ∉ l2 := by
    have := (List.nodup_append.mp hnd).2.1
    exact (List.nodup_cons.mp this).1
  have hinj := List.inj_on_of_nodup_map hn
  have hid1 : ∀ x ∈ l1, x.id ≠ r.id := by
    intro x hx he
    have : x = r :=
      hinj (List.mem_append_left _ hx)
        (List.mem_append_right _ (List.mem_cons_self r l2)) he
    exact hr1 (this ▸ hx)
  have hid2 : ∀ x ∈ l2, x.id ≠ r.id := by
    intro x hx he
    have : x = r :=
      hinj (List.mem_append_right _ (List.mem_cons_of_mem r hx))
        (List.mem_append_right _ (List.mem_cons_self r l2)) he
    exact hr2 (this ▸ hx)
  have hg1 : l1.map g = l1 := by
    have : l1.map g = l1.map id := List.map_congr_left (fun x hx => hg x (hid1 x hx))
    simpa using this
  have hg2 : l2.map g = l2 := by
    have : l2.map g = l2.map id := List.map_congr_left (fun x hx => hg x (hid2 x hx))
    simpa using this
  rw [List.map_append, List.map_cons, hg1, hg2, List.filter_append, List.filter_append]
  simp [List.filter_cons, hp, hq, List.length_append]
  omega

lemma filter_length_map_update_congr (l : List Task) (r : Task) (g : Task → Task)
    (p : Task → Bool)
    (hm : r ∈ l) (hn : (l.map Task.id).Nodup)
    (hg : ∀ x, x.id ≠ r.id → g x = x)
    (hpr : p (g r) = p r) :
    ((l.map g).filter p).length = (l.filter p).length := by
  apply filter_length_map_congr
  intro x hx
  by_cases hid : x.id = r.id
  · have : x = r := List.inj_on_of_nodup_map hn hx hm hid
    subst this; exact hpr
  · rw [hg x hid]

lemma find?_map_of_preserve {α : Type} (l : List α) (h : α → α) (p : α → Bool)
    (hp : ∀ x, p (h x) = p x) :
    (l.map h).find? p = (l.find? p).map h := by
  induction l with
  | nil => rfl
  | cons a l ih =>
    rw [List.map_cons]
    cases hpa : p a
    · rw [List.find?_cons_of_neg _ (by simp [hp, hpa]),
        List.find?_cons_of_neg _ (by simp [hpa]), ih]
    · rw [List.find?_cons_of_pos _ (by simp [hp, hpa]),
        List.find?_cons_of_pos _ (by simp [hpa])]
      rfl

lemma find_by_id_eq (l : List User) (hn : (l.map User.id).Nodup) (u : User)
    (hu : u ∈ l) :
    l.find? (fun x => x.id == u.id) = some u := by
  induction l with
  | nil => cases hu
  | cons a l ih =>
    rcases List.mem_cons.mp hu with rfl | hu'
    · exact List.find?_cons_of_pos _ (by simp)
    · rw [List.map_cons, List.nodup_cons] at hn
      have ha : (a.id == u.id) = false := by
        simp only [beq_eq_false_iff_ne, ne_eq]
        intro he
        exact hn.1 (he ▸ List.mem_map_of_mem User.id hu')
      rw [List.find?_cons_of_neg _ (by simp [ha]), ih hn.2 hu']

lemma find_task_by_id_eq (l : List Task) (hn : (l.map Task.id).Nodup) (r : Task)
    (hr : r ∈ l) :
    l.find? (fun x => x.id == r.id) = some r := by
  induction l with
  | nil => cases hr
  | cons a l ih =>
    rcases List.mem_cons.mp hr with rfl | hr'
    · exact List.find?_cons_of_pos _ (by simp)
    · rw [List.map_cons, List.nodup_cons] at hn
      have ha : (a.id == r.id) = false := by
        simp only [beq_eq_false_iff_ne, ne_eq]
        intro he
        exact hn.1 (he ▸ List.mem_map_of_mem Task.id hr')
      rw [List.find?_cons_of_neg _ (by simp [ha]), ih hn.2 hr']

lemma length_filter_mono {α : Type} (l : List α) (p q : α → Bool)
    (h : ∀ x, q x = true → p x = true) :
    (l.filter q).length ≤ (l.filter p).length := by
  induction l with
  | nil => simp
  | cons a l ih =>
    by_cases hq : q a = true
    · simp only [List.filter_cons, hq, h a hq, if_pos]
      simpa using ih
    · have hq' : q a = false := by
        cases hqa : q a
        · rfl
        · exact absurd hqa hq
      simp only [List.filter_cons, hq']
      cases hpa : p a <;> simp <;> omega

lemma length_le_one_of_const_id (l : List Task) (hn : (l.map Task.id).Nodup)
    (c : Nat) (h : ∀ x ∈ l, x.id = c) : l.length ≤ 1 := by
  match l with
  | [] => simp
  | [x] => simp
  | x :: y :: rest =>
    exfalso
    rw [List.map_cons, List.map_cons, List.nodup_cons] at hn
    have hx := h x (List.mem_cons_self _ _)
    have hy := h y (List.mem_cons_of_mem _ (List.mem_cons_self _ _))
    exact hn.1 (by rw [hx, ← hy]; exact List.mem_cons_self _ _)

lemma forall2_mem_right {R : User → User → Prop} :
    ∀ {l1 l2 : List User}, List.Forall₂ R l1 l2 → ∀ b ∈ l2, ∃ a ∈ l1, R a b
  | _, _, List.Forall₂.nil, b, hb => absurd hb (List.not_mem_nil b)
  | _, _, List.Forall₂.cons hR hF, b, hb => by
    rcases List.mem_cons.mp hb with rfl | hb'
    · exact ⟨_, List.mem_cons_self _ _, hR⟩
    · obtain ⟨a, ha, hr⟩ := forall2_mem_right hF b hb'
      exact ⟨a, List.mem_cons_of_mem _ ha, hr⟩

lemma forall2_map_right_mem {R S : User → User → Prop} (g : User → User) :
    ∀ {l1 l2 : List User}, List.Forall₂ R l1 l2 →
      (∀ a b, a ∈ l1 → b ∈ l2 → R a b → S a (g b)) →
      List.Forall₂ S l1 (l2.map g)
  | _, _, List.Forall₂.nil, _ => List.Forall₂.nil
  | _, _, List.Forall₂.cons hR hF, himp =>
    List.Forall₂.cons
      (himp _ _ (List.mem_cons_self _ _) (List.mem_cons_self _ _) hR)
      (forall2_map_right_mem g hF
        (fun a b ha hb hr =>
          himp a b (List.mem_cons_of_mem _ ha) (List.mem_cons_of_mem _ hb) hr))

lemma forall2_imp_mem {R S : User → User → Prop} :
    ∀ {l1 l2 : List User}, List.Forall₂ R l1 l2 →
      (∀ a b, a ∈ l1 → b ∈ l2 → R a b → S a b) →
      List.Forall₂ S l1 l2
  | _, _, List.Forall₂.nil, _ => List.Forall₂.nil
  | _, _, List.Forall₂.cons hR hF, himp =>
    List.Forall₂.cons
      (himp _ _ (List.mem_cons_self _ _) (List.mem_cons_self _ _) hR)
      (forall2_imp_mem hF
        (fun a b ha hb hr =>
          himp a b (List.mem_cons_of_mem _ ha) (List.mem_cons_of_mem _ hb) hr))

lemma forall2_map_eq {R : User → User → Prop} (hR : ∀ a b, R a b → b.id = a.id) :
    ∀ {l1 l2 : List User}, List.Forall₂ R l1 l2 →
      l2.map User.id = l1.map User.id
  | _, _, List.Forall₂.nil => rfl
  | _, _, List.Forall₂.cons h hF => by
    simp [hR _ _ h, forall2_map_eq hR hF]

lemma map_user_id_of_preserve (l : List User) (g : User → User)
    (hg : ∀ x, (g x).id = x.id) :
    (l.map g).map User.id = l.map User.id := by
  rw [List.map_map]
  exact List.map_congr_left (fun a _ => hg a)

lemma append_mp4_ne_empty (y : String) : y ++ ".mp4" ≠ "" := by
  intro h
  have h2 := congrArg String.length h
  rw [String.length_append] at h2
  have h3 : y.length + 4 = 0 := h2
  omega

/-! The inductive invariant of the transition system, relative to the
initial state of the worker context. -/

/-- Accounting relation between a user row at start-up and its current
value: identity fields are stable, the submission-credit balance equals
its initial value minus the number of jobs ever admitted for the account,
credits never go negative, and the minute balance is bounded below by its
initial value minus the number of completed (done) jobs, since top-ups
only add. -/
def UserInv (db : DB) (u0 u : User) : Prop :=
  u.id = u0.id ∧ u.code = u0.code ∧ 0 ≤ u.video_credits ∧
    u.video_credits = u0.video_credits - (countTasksOf db u0.id : Int) ∧
    u0.minutes_left - (countDoneOf db u0.id : Int) ≤ u.minutes_left

/-- Inductive invariant over reachable states. -/
structure Inv (init s : Sys) : Prop where
  tNodup : (s.db.tasks.map Task.id).Nodup
  tLt : ∀ r ∈ s.db.tasks, r.id < s.db.nextTaskId
  tStatus : ∀ r ∈ s.db.tasks,
    r.status = "queued" ∨ r.status = "processing" ∨ r.status = "done" ∨
      r.status = "error"
  tDone : ∀ r ∈ s.db.tasks, r.status = "done" →
    ∃ p, r.result_path = some p ∧ p ≠ ""
  tNotDone : ∀ r ∈ s.db.tasks, r.status ≠ "done" → r.result_path = none
  tClock : ∀ r ∈ s.db.tasks, r.created_at ≤ s.clock
  fifo : ∀ a ∈ s.db.tasks, ∀ b ∈ s.db.tasks,
    a.status = "queued" → b.status ≠ "queued" → b.created_at ≤ a.created_at
  idleNoProc : s.phase = Phase.idle → ∀ r ∈ s.db.tasks, r.status ≠ "processing"
  busyProc : ∀ t, s.phase = Phase.busy t →
    (∃ r ∈ s.db.tasks, r.id = t.id ∧ r.status = "processing" ∧
      r.user_id = t.user_id) ∧
    ∀ r ∈ s.db.tasks, r.status = "processing" → r.id = t.id
  owners : ∀ r ∈ s.db.tasks, ∃ u ∈ s.db.users, u.id = r.user_id
  uNodup : (s.db.users.map User.id).Nodup
  usersInv : List.Forall₂ (UserInv s.db) init.db.users s.db.users

lemma usersInv_congr {db db' : DB}
    (h1 : ∀ uid, countTasksOf db' uid = countTasksOf db uid)
    (h2 : ∀ uid, countDoneOf db' uid = countDoneOf db uid) (u0 u : User) :
    UserInv db u0 u → UserInv db' u0 u := by
  rintro ⟨a, b, c, d, e⟩
  exact ⟨a, b, c, by rw [h1]; exact d, by rw [h2]; exact e⟩

lemma initial_inv {s : Sys} (h : Initial s) : Inv s s := by
  obtain ⟨ht, hp, hn, hc⟩ := h
  refine ⟨?_, ?_, ?_, ?_, ?_, ?_, ?_, ?_, ?_, ?_, hn, ?_⟩
  · rw [ht]; exact List.nodup_nil
  · rw [ht]; intro r hr; cases hr
  · rw [ht]; intro r hr; cases hr
  · rw [ht]; intro r hr; cases hr
  · rw [ht]; intro r hr; cases hr
  · rw [ht]; intro r hr; cases hr
  · rw [ht]; intro a ha; cases ha
  · rw [ht]; intro _ r hr; cases hr
  · intro t hbt; rw [hp] at hbt; cases hbt
  · rw [ht]; intro r hr; cases hr
  · rw [List.forall₂_same]
    intro u hu
    refine ⟨rfl, rfl, hc u hu, ?_, ?_⟩
    · simp [countTasksOf, ht]
    · simp [countDoneOf, ht]

/-! Unfolding lemmas for the database operations. -/

lemma update_task_status_tasks_f (db : DB) (tid : Nat) (st : String)
    (rp : Option String) (h : truthy rp = false) :
    (update_task_status db tid st rp).tasks =
      db.tasks.map (fun x => if x.id = tid then { x with status := st } else x) := by
  simp [update_task_status, h]

lemma update_task_status_tasks_t (db : DB) (tid : Nat) (st : String)
    (rp : Option String) (h : truthy rp = true) :
    (update_task_status db tid st rp).tasks =
      db.tasks.map (fun x =>
        if x.id = tid then { x with status := st, result_path := rp } else x) := by
  simp [update_task_status, h]

lemma update_task_status_users (db : DB) (tid : Nat) (st : String)
    (rp : Option String) :
    (update_task_status db tid st rp).users = db.users := by
  unfold update_task_status
  split <;> rfl

lemma update_task_status_nextTaskId (db : DB) (tid : Nat) (st : String)
    (rp : Option String) :
    (update_task_status db tid st rp).nextTaskId = db.nextTaskId := by
  unfold update_task_status
  split <;> rfl

lemma decrease_minutes_tasks (db : DB) (uid : Nat) (m : Int) :
    (decrease_minutes db uid m).tasks = db.tasks := rfl

lemma decrease_minutes_nextTaskId (db : DB) (uid : Nat) (m : Int) :
    (decrease_minutes db uid m).nextTaskId = db.nextTaskId := rfl

lemma countTasksOf_tasks_eq {db db' : DB} (h : db'.tasks = db.tasks) (uid : Nat) :
    countTasksOf db' uid = countTasksOf db uid := by
  unfold countTasksOf
  rw [h]

lemma countDoneOf_tasks_eq {db db' : DB} (h : db'.tasks = db.tasks) (uid : Nat) :
    countDoneOf db' uid = countDoneOf db uid := by
  unfold countDoneOf
  rw [h]

/-! Preservation of the invariant by each step. -/

lemma inv_claim {init s : Sys} {t : Task} (hs : Inv init s)
    (hph : s.phase = Phase.idle) (ht : get_next_possible s.db t) :
    Inv init
      { s with db := update_task_status s.db t.id "processing" none,
               phase := Phase.busy t } := by
  obtain ⟨htm, htq, hmin⟩ := ht
  have htr : truthy (none : Option String) = false := rfl
  have htasks := update_task_status_tasks_f s.db t.id "processing" none htr
  set g : Task → Task :=
    fun x => if x.id = t.id then { x with status := "processing" } else x with hg
  have hgid : ∀ x, (g x).id = x.id := by
    intro x
    by_cases h : x.id = t.id <;> simp [hg, h]
  have hguid : ∀ x, (g x).user_id = x.user_id := by
    intro x
    by_cases h : x.id = t.id <;> simp [hg, h]
  have hgcreated : ∀ x, (g x).created_at = x.created_at := by
    intro x
    by_cases h : x.id = t.id <;> simp [hg, h]
  have hinj := List.inj_on_of_nodup_map hs.tNodup
  have hxt : ∀ x ∈ s.db.tasks, x.id = t.id → x = t := by
    intro x hx he
    exact hinj hx htm he
  have hct : ∀ uid, countTasksOf (update_task_status s.db t.id "processing" none) uid
      = countTasksOf s.db uid := by
    intro uid
    unfold countTasksOf
    rw [htasks]
    exact filter_length_map_congr _ _ _ (fun x _ => by rw [hguid])
  have hcd : ∀ uid, countDoneOf (update_task_status s.db t.id "processing" none) uid
      = countDoneOf s.db uid := by
    intro uid
    unfold countDoneOf
    rw [htasks]
    refine filter_length_map_update_congr _ t g _ htm hs.tNodup ?_ ?_
    · intro x hx
      simp [hg, hx]
    · simp [hg, htq]
  refine ⟨?_, ?_, ?_, ?_, ?_, ?_, ?_, ?_, ?_, ?_, ?_, ?_⟩
  · show ((update_task_status s.db t.id "processing" none).tasks.map Task.id).Nodup
    rw [htasks, map_task_id_of_preserve _ g hgid]
    exact hs.tNodup
  · show ∀ r ∈ (update_task_status s.db t.id "processing" none).tasks, _
    rw [htasks, update_task_status_nextTaskId]
    intro r hr
    obtain ⟨x, hx, rfl⟩ := List.mem_map.mp hr
    rw [hgid]
    exact hs.tLt x hx
  · show ∀ r ∈ (update_task_status s.db t.id "processing" none).tasks, _
    rw [htasks]
    intro r hr
    obtain ⟨x, hx, rfl⟩ := List.mem_map.mp hr
    by_cases h : x.id = t.id
    · simp [hg, h]
    · simp only [hg, if_neg h]
      exact hs.tStatus x hx
  · show ∀ r ∈ (update_task_status s.db t.id "processing" none).tasks, _
    rw [htasks]
    intro r hr hdone
    obtain ⟨x, hx, rfl⟩ := List.mem_map.mp hr
    by_cases h : x.id = t.id
    · simp [hg, h] at hdone
    · simp only [hg, if_neg h] at hdone ⊢
      exact hs.tDone x hx hdone
  · show ∀ r ∈ (update_task_status s.db t.id "processing" none).tasks, _
    rw [htasks]
    intro r hr hnd
    obtain ⟨x, hx, rfl⟩ := List.mem_map.mp hr
    by_cases h : x.id = t.id
    · have hx_t : x = t := hxt x hx h
      subst hx_t
      simp only [hg, if_pos h]
      exact hs.tNotDone x hx (by rw [htq]; decide)
    · simp only [hg, if_neg h] at hnd ⊢
      exact hs.tNotDone x hx hnd
  · show ∀ r ∈ (update_task_status s.db t.id "processing" none).tasks, _
    rw [htasks]
    intro r hr
    obtain ⟨x, hx, rfl⟩ := List.mem_map.mp hr
    rw [hgcreated]
    exact hs.tClock x hx
  · show ∀ a ∈ (update_task_status s.db t.id "processing" none).tasks, _
    rw [htasks]
    intro a ha b hb haq hbnq
    obtain ⟨x, hx, rfl⟩ := List.mem_map.mp ha
    obtain ⟨y, hy, rfl⟩ := List.mem_map.mp hb
    rw [hgcreated, hgcreated]
    have hxq : x.status = "queued" := by
      by_cases h : x.id = t.id
      · simp [hg, h] at haq
      · simpa only [hg, if_neg h] using haq
    by_cases h : y.id = t.id
    · have hy_t : y = t := hxt y hy h
      subst hy_t
      exact hmin x hx hxq
    · simp only [hg, if_neg h] at hbnq
      exact hs.fifo x hx y hy hxq hbnq
  · intro hcontra
    simp at hcontra
  · intro t' hbt
    have htt : t' = t := by
      simpa using hbt.symm
    rw [htt]
    constructor
    · refine ⟨g t, ?_, ?_, ?_, ?_⟩
      · rw [htasks]
        exact List.mem_map_of_mem g htm
      · rw [hgid]
      · simp [hg]
      · rw [hguid]
    · intro r hr hrp
      rw [htasks] at hr
      obtain ⟨x, hx, rfl⟩ := List.mem_map.mp hr
      rw [hgid]
      by_cases h : x.id = t.id
      · exact h
      · simp only [hg, if_neg h] at hrp
        exact absurd hrp (hs.idleNoProc hph x hx)
  · show ∀ r ∈ (update_task_status s.db t.id "processing" none).tasks, _
    rw [htasks, update_task_status_users]
    intro r hr
    obtain ⟨x, hx, rfl⟩ := List.mem_map.mp hr
    rw [hguid]
    exact hs.owners x hx
  · show ((update_task_status s.db t.id "processing" none).users.map User.id).Nodup
    rw [update_task_status_users]
    exact hs.uNodup
  · show List.Forall₂ _ init.db.users (update_task_status s.db t.id "processing" none).users
    rw [update_task_status_users]
    exact hs.usersInv.imp (fun a b => usersInv_congr hct hcd a b)

lemma assemble_video_ok_ne_empty {env : StageEnv} {vp d f : String}
    (h : assemble_video env vp d = Except.ok f) : f ≠ "" := by
  unfold assemble_video at h
  split at h
  · cases h
  · injection h with h2
    rw [← h2]
    exact append_mp4_ne_empty _

lemma runPipelineW_fst_ok_ne_empty {env : StageEnv} {vp lang f : String}
    (h : (runPipelineW env vp lang).1 = Except.ok f) : f ≠ "" := by
  unfold runPipelineW at h
  split at h
  · cases h
  · split at h
    · cases h
    · split at h
      · cases h
      · split at h
        · cases h
        · split at h
          · cases h
          · rename_i heqa
            simp only at h
            injection h with h2
            rw [h2] at heqa
            exact assemble_video_ok_ne_empty heqa

lemma inv_finish_err {init s : Sys} {t : Task} (hs : Inv init s)
    (hph : s.phase = Phase.busy t) (w : List String) :
    Inv init
      { s with db := update_task_status s.db t.id "error" none,
               phase := Phase.idle, storage := s.storage ++ w } := by
  obtain ⟨⟨r, hrm, hrid, hrst, hruid⟩, huniq⟩ := hs.busyProc t hph
  have htr : truthy (none : Option String) = false := rfl
  have htasks := update_task_status_tasks_f s.db t.id "error" none htr
  set g : Task → Task :=
    fun x => if x.id = t.id then { x with status := "error" } else x with hg
  have hgid : ∀ x, (g x).id = x.id := by
    intro x
    by_cases h : x.id = t.id <;> simp [hg, h]
  have hguid : ∀ x, (g x).user_id = x.user_id := by
    intro x
    by_cases h : x.id = t.id <;> simp [hg, h]
  have hgcreated : ∀ x, (g x).created_at = x.created_at := by
    intro x
    by_cases h : x.id = t.id <;> simp [hg, h]
  have hinj := List.inj_on_of_nodup_map hs.tNodup
  have hxr : ∀ x ∈ s.db.tasks, x.id = t.id → x = r := by
    intro x hx he
    exact hinj hx hrm (by rw [he, hrid])
  have hct : ∀ uid, countTasksOf (update_task_status s.db t.id "error" none) uid
      = countTasksOf s.db uid := by
    intro uid
    unfold countTasksOf
    rw [htasks]
    exact filter_length_map_congr _ _ _ (fun x _ => by rw [hguid])
  have hcd : ∀ uid, countDoneOf (update_task_status s.db t.id "error" none) uid
      = countDoneOf s.db uid := by
    intro uid
    unfold countDoneOf
    rw [htasks]
    refine filter_length_map_update_congr _ r g _ hrm hs.tNodup ?_ ?_
    · intro x hx
      rw [hg]
      simp only
      rw [if_neg (by rw [hrid] at hx; exact hx)]
    · rw [hg]
      simp only [if_pos hrid, hrst]
      simp
  refine ⟨?_, ?_, ?_, ?_, ?_, ?_, ?_, ?_, ?_, ?_, ?_, ?_⟩
  · show ((update_task_status s.db t.id "error" none).tasks.map Task.id).Nodup
    rw [htasks, map_task_id_of_preserve _ g hgid]
    exact hs.tNodup
  · show ∀ x ∈ (update_task_status s.db t.id "error" none).tasks, _
    rw [htasks, update_task_status_nextTaskId]
    intro x hx
    obtain ⟨y, hy, rfl⟩ := List.mem_map.mp hx
    rw [hgid]
    exact hs.tLt y hy
  · show ∀ x ∈ (update_task_status s.db t.id "error" none).tasks, _
    rw [htasks]
    intro x hx
    obtain ⟨y, hy, rfl⟩ := List.mem_map.mp hx
    by_cases h : y.id = t.id
    · simp [hg, h]
    · simp only [hg, if_neg h]
      exact hs.tStatus y hy
  · show ∀ x ∈ (update_task_status s.db t.id "error" none).tasks, _
    rw [htasks]
    intro x hx hdone
    obtain ⟨y, hy, rfl⟩ := List.mem_map.mp hx
    by_cases h : y.id = t.id
    · simp [hg, h] at hdone
    · simp only [hg, if_neg h] at hdone ⊢
      exact hs.tDone y hy hdone
  · show ∀ x ∈ (update_task_status s.db t.id "error" none).tasks, _
    rw [htasks]
    intro x hx hnd
    obtain ⟨y, hy, rfl⟩ := List.mem_map.mp hx
    by_cases h : y.id = t.id
    · have hy_r : y = r := hxr y hy h
      subst hy_r
      simp only [hg, if_pos h]
      exact hs.tNotDone y hy (by rw [hrst]; decide)
    · simp only [hg, if_neg h] at hnd ⊢
      exact hs.tNotDone y hy hnd
  · show ∀ x ∈ (update_task_status s.db t.id "error" none).tasks, _
    rw [htasks]
    intro x hx
    obtain ⟨y, hy, rfl⟩ := List.mem_map.mp hx
    rw [hgcreated]
    exact hs.tClock y hy
  · show ∀ a ∈ (update_task_status s.db t.id "error" none).tasks, _
    rw [htasks]
    intro a ha b hb haq hbnq
    obtain ⟨x, hx, rfl⟩ := List.mem_map.mp ha
    obtain ⟨y, hy, rfl⟩ := List.mem_map.mp hb
    rw [hgcreated, hgcreated]
    have hxq : x.status = "queued" := by
      by_cases h : x.id = t.id
      · simp [hg, h] at haq
      · simpa only [hg, if_neg h] using haq
    by_cases h : y.id = t.id
    · have hy_r : y = r := hxr y hy h
      subst hy_r
      exact hs.fifo x hx y hy hxq (by rw [hrst]; decide)
    · simp only [hg, if_neg h] at hbnq
      exact hs.fifo x hx y hy hxq hbnq
  · intro _ x hx
    rw [htasks] at hx
    obtain ⟨y, hy, rfl⟩ := List.mem_map.mp hx
    by_cases h : y.id = t.id
    · simp [hg, h]
    · simp only [hg, if_neg h]
      intro hyp
      exact absurd (huniq y hy hyp) h
  · intro t' hbt
    simp at hbt
  · show ∀ x ∈ (update_task_status s.db t.id "error" none).tasks, _
    rw [htasks, update_task_status_users]
    intro x hx
    obtain ⟨y, hy, rfl⟩ := List.mem_map.mp hx
    rw [hguid]
    exact hs.owners y hy
  · show ((update_task_status s.db t.id "error" none).users.map User.id).Nodup
    rw [update_task_status_users]
    exact hs.uNodup
  · show List.Forall₂ _ init.db.users (update_task_status s.db t.id "error" none).users
    rw [update_task_status_users]
    exact hs.usersInv.imp (fun a b => usersInv_congr hct hcd a b)

lemma inv_finish_ok {init s : Sys} {t : Task} {f : String} (hs : Inv init s)
    (hph : s.phase = Phase.busy t) (hf : f ≠ "") (w : List String) :
    Inv init
      { s with
        db := decrease_minutes
          (update_task_status s.db t.id "done" (some f)) t.user_id 1,
        phase := Phase.idle, storage := s.storage ++ w } := by
  obtain ⟨⟨r, hrm, hrid, hrst, hruid⟩, huniq⟩ := hs.busyProc t hph
  have htr : truthy (some f) = true := by
    simp [truthy, hf]
  have htasks0 := update_task_status_tasks_t s.db t.id "done" (some f) htr
  set db2 : DB := decrease_minutes (update_task_status s.db t.id "done" (some f))
    t.user_id 1 with hdb2
  have htasks : db2.tasks = s.db.tasks.map
      (fun x => if x.id = t.id then { x with status := "done", result_path := some f }
        else x) := by
    rw [hdb2, decrease_minutes_tasks, htasks0]
  have husers : db2.users = (update_task_status s.db t.id "done" (some f)).users.map
      (fun u => if u.id = t.user_id then { u with minutes_left := u.minutes_left - 1 }
        else u) := rfl
  have husers2 : db2.users = s.db.users.map
      (fun u => if u.id = t.user_id then { u with minutes_left := u.minutes_left - 1 }
        else u) := by
    rw [husers, update_task_status_users]
  set g : Task → Task :=
    fun x => if x.id = t.id then { x with status := "done", result_path := some f }
      else x with hg
  set hmf : User → User :=
    fun u => if u.id = t.user_id then { u with minutes_left := u.minutes_left - 1 }
      else u with hhmf
  have hgid : ∀ x, (g x).id = x.id := by
    intro x
    by_cases h : x.id = t.id <;> simp [hg, h]
  have hguid : ∀ x, (g x).user_id = x.user_id := by
    intro x
    by_cases h : x.id = t.id <;> simp [hg, h]
  have hgcreated : ∀ x, (g x).created_at = x.created_at := by
    intro x
    by_cases h : x.id = t.id <;> simp [hg, h]
  have hmid : ∀ u, (hmf u).id = u.id := by
    intro u
    by_cases h : u.id = t.user_id <;> simp [hhmf, h]
  have hinj := List.inj_on_of_nodup_map hs.tNodup
  have hxr : ∀ x ∈ s.db.tasks, x.id = t.id → x = r := by
    intro x hx he
    exact hinj hx hrm (by rw [he, hrid])
  have hct : ∀ uid, countTasksOf db2 uid = countTasksOf s.db uid := by
    intro uid
    unfold countTasksOf
    rw [htasks]
    exact filter_length_map_congr _ _ _ (fun x _ => by rw [hguid])
  have hcd_own : countDoneOf db2 t.user_id = countDoneOf s.db t.user_id + 1 := by
    unfold countDoneOf
    rw [htasks]
    refine filter_length_map_update _ r g _ hrm hs.tNodup ?_ ?_ ?_
    · intro x hx
      rw [hg]
      simp only
      rw [if_neg (by rw [hrid] at hx; exact hx)]
    · simp [hrst]
    · rw [hg]
      simp only [if_pos hrid]
      simp [hruid]
  have hcd_other : ∀ uid, uid ≠ t.user_id →
      countDoneOf db2 uid = countDoneOf s.db uid := by
    intro uid hne
    unfold countDoneOf
    rw [htasks]
    refine filter_length_map_update_congr _ r g _ hrm hs.tNodup ?_ ?_
    · intro x hx
      rw [hg]
      simp only
      rw [if_neg (by rw [hrid] at hx; exact hx)]
    · rw [hg]
      simp only [if_pos hrid]
      have : (r.user_id == uid) = false := by
        simp [hruid]
        exact fun he => absurd he.symm hne
      simp [this]
  refine ⟨?_, ?_, ?_, ?_, ?_, ?_, ?_, ?_, ?_, ?_, ?_, ?_⟩
  · show (db2.tasks.map Task.id).Nodup
    rw [htasks, map_task_id_of_preserve _ g hgid]
    exact hs.tNodup
  · show ∀ x ∈ db2.tasks, x.id < db2.nextTaskId
    rw [htasks]
    have : db2.nextTaskId = s.db.nextTaskId := by
      rw [hdb2, decrease_minutes_nextTaskId, update_task_status_nextTaskId]
    rw [this]
    intro x hx
    obtain ⟨y, hy, rfl⟩ := List.mem_map.mp hx
    rw [hgid]
    exact hs.tLt y hy
  · show ∀ x ∈ db2.tasks, _
    rw [htasks]
    intro x hx
    obtain ⟨y, hy, rfl⟩ := List.mem_map.mp hx
    by_cases h : y.id = t.id
    · simp [hg, h]
    · simp only [hg, if_neg h]
      exact hs.tStatus y hy
  · show ∀ x ∈ db2.tasks, _
    rw [htasks]
    intro x hx hdone
    obtain ⟨y, hy, rfl⟩ := List.mem_map.mp hx
    by_cases h : y.id = t.id
    · refine ⟨f, ?_, hf⟩
      simp [hg, h]
    · simp only [hg, if_neg h] at hdone ⊢
      exact hs.tDone y hy hdone
  · show ∀ x ∈ db2.tasks, _
    rw [htasks]
    intro x hx hnd
    obtain ⟨y, hy, rfl⟩ := List.mem_map.mp hx
    by_cases h : y.id = t.id
    · simp [hg, h] at hnd
    · simp only [hg, if_neg h] at hnd ⊢
      exact hs.tNotDone y hy hnd
  · show ∀ x ∈ db2.tasks, _
    rw [htasks]
    intro x hx
    obtain ⟨y, hy, rfl⟩ := List.mem_map.mp hx
    rw [hgcreated]
    exact hs.tClock y hy
  · show ∀ a ∈ db2.tasks, _
    rw [htasks]
    intro a ha b hb haq hbnq
    obtain ⟨x, hx, rfl⟩ := List.mem_map.mp ha
    obtain ⟨y, hy, rfl⟩ := List.mem_map.mp hb
    rw [hgcreated, hgcreated]
    have hxq : x.status = "queued" := by
      by_cases h : x.id = t.id
      · simp [hg, h] at haq
      · simpa only [hg, if_neg h] using haq
    by_cases h : y.id = t.id
    · have hy_r : y = r := hxr y hy h
      subst hy_r
      exact hs.fifo x hx y hy hxq (by rw [hrst]; decide)
    · simp only [hg, if_neg h] at hbnq
      exact hs.fifo x hx y hy hxq hbnq
  · intro _ x hx
    rw [htasks] at hx
    obtain ⟨y, hy, rfl⟩ := List.mem_map.mp hx
    by_cases h : y.id = t.id
    · simp [hg, h]
    · simp only [hg, if_neg h]
      intro hyp
      exact absurd (huniq y hy hyp) h
  · intro t' hbt
    simp at hbt
  · show ∀ x ∈ db2.tasks, ∃ u ∈ db2.users, u.id = x.user_id
    rw [htasks, husers2]
    intro x hx
    obtain ⟨y, hy, rfl⟩ := List.mem_map.mp hx
    rw [hguid]
    obtain ⟨u, hu, huid⟩ := hs.owners y hy
    exact ⟨hmf u, List.mem_map_of_mem hmf hu, by rw [hmid, huid]⟩
  · show (db2.users.map User.id).Nodup
    rw [husers2, map_user_id_of_preserve _ hmf hmid]
    exact hs.uNodup
  · show List.Forall₂ (UserInv db2) init.db.users db2.users
    rw [husers2]
    refine forall2_map_right_mem hmf hs.usersInv ?_
    rintro a b _ _ ⟨hid, hcode, hcred, heq, hmin⟩
    by_cases h : b.id = t.user_id
    · have hb' : hmf b = { b with minutes_left := b.minutes_left - 1 } := by
        rw [hhmf]
        simp [h]
      refine ⟨by rw [hb', hid], by rw [hb']; exact hcode, ?_, ?_, ?_⟩
      · rw [hb']
        exact hcred
      · rw [hb', hct]
        exact heq
      · rw [hb']
        have : countDoneOf db2 a.id = countDoneOf s.db a.id + 1 := by
          rw [hid] at h
          rw [h]
          exact hcd_own
        rw [this]
        push_cast
        omega
    · have hb' : hmf b = b := by
        rw [hhmf]
        simp [h]
      refine ⟨by rw [hb', hid], by rw [hb']; exact hcode, ?_, ?_, ?_⟩
      · rw [hb']
        exact hcred
      · rw [hb', hct]
        exact heq
      · rw [hb']
        have : countDoneOf db2 a.id = countDoneOf s.db a.id := by
          refine hcd_other a.id ?_
          rw [← hid]
          exact h
        rw [this]
        exact hmin

lemma inv_finish {env : StageEnv} {init s : Sys} {t : Task} (hs : Inv init s)
    (hph : s.phase = Phase.busy t) :
    Inv init (finishSys env s t) := by
  unfold finishSys
  cases hres : (runPipelineW env t.video_path t.language).1 with
  | error e => exact inv_finish_err hs hph _
  | ok f => exact inv_finish_ok hs hph (runPipelineW_fst_ok_ne_empty hres) _

lemma inv_topup {init s : Sys} (hs : Inv init s) (code : String) (n : Nat) :
    Inv init (cryptomus_callback s code n) := by
  unfold cryptomus_callback
  cases hu : get_user_by_code s.db code with
  | none => exact hs
  | some user =>
    set hmf : User → User :=
      fun u => if u.id = user.id then { u with minutes_left := u.minutes_left - -(n : Int) }
        else u with hhmf
    have hmid : ∀ u, (hmf u).id = u.id := by
      intro u
      by_cases h : u.id = user.id <;> simp [hhmf, h]
    have husers : (decrease_minutes s.db user.id (-(n : Int))).users =
        s.db.users.map hmf := rfl
    have htasks : (decrease_minutes s.db user.id (-(n : Int))).tasks = s.db.tasks := rfl
    have hct : ∀ uid, countTasksOf (decrease_minutes s.db user.id (-(n : Int))) uid
        = countTasksOf s.db uid := countTasksOf_tasks_eq htasks
    have hcd : ∀ uid, countDoneOf (decrease_minutes s.db user.id (-(n : Int))) uid
        = countDoneOf s.db uid := countDoneOf_tasks_eq htasks
    refine ⟨?_, ?_, ?_, ?_, ?_, ?_, ?_, ?_, ?_, ?_, ?_, ?_⟩
    · show ((decrease_minutes s.db user.id (-(n : Int))).tasks.map Task.id).Nodup
      rw [htasks]
      exact hs.tNodup
    · show ∀ x ∈ (decrease_minutes s.db user.id (-(n : Int))).tasks, _
      rw [htasks]
      exact hs.tLt
    · show ∀ x ∈ (decrease_minutes s.db user.id (-(n : Int))).tasks, _
      rw [htasks]
      exact hs.tStatus
    · show ∀ x ∈ (decrease_minutes s.db user.id (-(n : Int))).tasks, _
      rw [htasks]
      exact hs.tDone
    · show ∀ x ∈ (decrease_minutes s.db user.id (-(n : Int))).tasks, _
      rw [htasks]
      exact hs.tNotDone
    · show ∀ x ∈ (decrease_minutes s.db user.id (-(n : Int))).tasks, _
      rw [htasks]
      exact hs.tClock
    · show ∀ a ∈ (decrease_minutes s.db user.id (-(n : Int))).tasks, _
      rw [htasks]
      exact hs.fifo
    · intro hph x hx
      rw [htasks] at hx
      exact hs.idleNoProc hph x hx
    · intro t' hbt
      obtain ⟨⟨r, hrm, hprops⟩, huniq⟩ := hs.busyProc t' hbt
      refine ⟨⟨r, by rw [htasks]; exact hrm, hprops⟩, ?_⟩
      intro x hx
      rw [htasks] at hx
      exact huniq x hx
    · intro x hx
      rw [htasks] at hx
      rw [husers]
      obtain ⟨u, hu, huid⟩ := hs.owners x hx
      exact ⟨hmf u, List.mem_map_of_mem hmf hu, by rw [hmid, huid]⟩
    · show ((decrease_minutes s.db user.id (-(n : Int))).users.map User.id).Nodup
      rw [husers, map_user_id_of_preserve _ hmf hmid]
      exact hs.uNodup
    · show List.Forall₂ _ init.db.users (decrease_minutes s.db user.id (-(n : Int))).users
      rw [husers]
      refine forall2_map_right_mem hmf hs.usersInv ?_
      rintro a b _ _ ⟨hid, hcode, hcred, heq, hmin⟩
      by_cases h : b.id = user.id
      · have hb' : hmf b = { b with minutes_left := b.minutes_left + (n : Int) } := by
          rw [hhmf]
          simp [h]
        refine ⟨by rw [hb', hid], by rw [hb']; exact hcode,
          by rw [hb']; exact hcred, by rw [hb', hct]; exact heq, ?_⟩
        rw [hb', hcd]
        show a.minutes_left - (countDoneOf s.db a.id : Int) ≤ b.minutes_left + (n : Int)
        have hn : (0 : Int) ≤ (n : Int) := Int.ofNat_nonneg n
        omega
      · have hb' : hmf b = b := by
          rw [hhmf]
          simp [h]
        rw [hb']
        exact ⟨hid, hcode, hcred, by rw [hct]; exact heq, by rw [hcd]; exact hmin⟩

lemma inv_clock_storage {init s : Sys} (hs : Inv init s) (now : Nat)
    (hc : s.clock ≤ now) (st : List String) :
    Inv init { s with storage := st, clock := now } := by
  refine ⟨hs.tNodup, hs.tLt, hs.tStatus, hs.tDone, hs.tNotDone, ?_, hs.fifo,
    hs.idleNoProc, hs.busyProc, hs.owners, hs.uNodup, hs.usersInv⟩
  intro r hr
  exact Nat.le_trans (hs.tClock r hr) hc

lemma inv_submit {init s : Sys} (hs : Inv init s) (code fname lang : String)
    (now : Nat) (hc : s.clock ≤ now) :
    Inv init { (translate_video s code fname lang now).2 with clock := now } := by
  unfold translate_video
  cases hu : get_user_by_code s.db code with
  | none =>
    exact inv_clock_storage hs now hc s.storage
  | some user =>
    by_cases hm : user.minutes_left ≤ 0
    · simp only [if_pos hm]
      exact inv_clock_storage hs now hc s.storage
    · simp only [if_neg hm]
      have humem : user ∈ s.db.users := List.mem_of_find?_eq_some hu
      have hbyid : get_user_by_id s.db user.id = some user :=
        find_by_id_eq _ hs.uNodup user humem
      by_cases hcred : user.video_credits ≤ 0
      · simp only [add_task, hbyid, if_pos hcred]
        exact inv_clock_storage hs now hc _
      · simp only [add_task, hbyid, if_neg hcred]
        set vp : String := UPLOAD_DIR ++ "/" ++ fname ++ ".mp4" with hvp
        set T : Task := newTask s.db user.id vp lang now with hT
        set gc : User → User :=
          fun u => if u.id = user.id then { u with video_credits := u.video_credits - 1 }
            else u with hgc
        have hgcid : ∀ u, (gc u).id = u.id := by
          intro u
          by_cases h : u.id = user.id <;> simp [hgc, h]
        have hctApp : ∀ uid,
            countTasksOf (decrease_video_credits
              { s.db with tasks := s.db.tasks ++ [T], nextTaskId := s.db.nextTaskId + 1 }
              user.id 1) uid
            = countTasksOf s.db uid + (if user.id = uid then 1 else 0) := by
          intro uid
          unfold countTasksOf
          show (List.filter _ (s.db.tasks ++ [T])).length = _
          rw [List.filter_append, List.length_append]
          congr 1
          by_cases h : user.id = uid <;> simp [hT, newTask, h]
        have hcdApp : ∀ uid,
            countDoneOf (decrease_video_credits
              { s.db with tasks := s.db.tasks ++ [T], nextTaskId := s.db.nextTaskId + 1 }
              user.id 1) uid
            = countDoneOf s.db uid := by
          intro uid
          unfold countDoneOf
          show (List.filter _ (s.db.tasks ++ [T])).length = _
          rw [List.filter_append, List.length_append]
          simp [hT, newTask]
        refine ⟨?_, ?_, ?_, ?_, ?_, ?_, ?_, ?_, ?_, ?_, ?_, ?_⟩
        · show ((s.db.tasks ++ [T]).map Task.id).Nodup
          rw [List.map_append]
          refine List.Nodup.append hs.tNodup (List.nodup_singleton _) ?_
          intro a ha hb
          obtain ⟨x, hx, rfl⟩ := List.mem_map.mp ha
          have hxa : x.id < s.db.nextTaskId := hs.tLt x hx
          have hxT : x.id = T.id := by simpa using hb
          rw [hT] at hxT
          simp only [newTask] at hxT
          omega
        · show ∀ r ∈ s.db.tasks ++ [T], r.id < s.db.nextTaskId + 1
          intro r hr
          rcases List.mem_append.mp hr with h | h
          · exact Nat.lt_succ_of_lt (hs.tLt r h)
          · have hrT : r = T := by simpa using h
            rw [hrT, hT]
            show s.db.nextTaskId < s.db.nextTaskId + 1
            omega
        · show ∀ r ∈ s.db.tasks ++ [T], r.status = "queued" ∨ r.status = "processing" ∨
            r.status = "done" ∨ r.status = "error"
          intro r hr
          rcases List.mem_append.mp hr with h | h
          · exact hs.tStatus r h
          · have hrT : r = T := by simpa using h
            rw [hrT, hT]
            left
            rfl
        · show ∀ r ∈ s.db.tasks ++ [T], r.status = "done" →
            ∃ p, r.result_path = some p ∧ p ≠ ""
          intro r hr hdone
          rcases List.mem_append.mp hr with h | h
          · exact hs.tDone r h hdone
          · have hrT : r = T := by simpa using h
            rw [hrT, hT] at hdone
            simp [newTask] at hdone
        · show ∀ r ∈ s.db.tasks ++ [T], r.status ≠ "done" → r.result_path = none
          intro r hr hnd
          rcases List.mem_append.mp hr with h | h
          · exact hs.tNotDone r h hnd
          · have hrT : r = T := by simpa using h
            rw [hrT, hT]
            rfl
        · show ∀ r ∈ s.db.tasks ++ [T], r.created_at ≤ now
          intro r hr
          rcases List.mem_append.mp hr with h | h
          · exact Nat.le_trans (hs.tClock r h) hc
          · have hrT : r = T := by simpa using h
            rw [hrT, hT]
            show now ≤ now
            omega
        · show ∀ a ∈ s.db.tasks ++ [T], ∀ b ∈ s.db.tasks ++ [T],
            a.status = "queued" → b.status ≠ "queued" → b.created_at ≤ a.created_at
          intro a ha b hb haq hbnq
          rcases List.mem_append.mp ha with ha' | ha' <;>
            rcases List.mem_append.mp hb with hb' | hb'
          · exact hs.fifo a ha' b hb' haq hbnq
          · have hbT : b = T := by simpa using hb'
            rw [hbT, hT] at hbnq
            simp [newTask] at hbnq
          · have haT : a = T := by simpa using ha'
            have hbc : b.created_at ≤ s.clock := hs.tClock b hb'
            rw [haT, hT]
            show b.created_at ≤ now
            omega
          · have hbT : b = T := by simpa using hb'
            rw [hbT, hT] at hbnq
            simp [newTask] at hbnq
        · intro hph r hr
          rcases List.mem_append.mp hr with h | h
          · exact hs.idleNoProc hph r h
          · have hrT : r = T := by simpa using h
            rw [hrT, hT]
            show ("queued" : String) ≠ "processing"
            decide
        · intro t' hbt
          obtain ⟨⟨r, hrm, hprops⟩, huniq⟩ := hs.busyProc t' hbt
          refine ⟨⟨r, List.mem_append_left _ hrm, hprops⟩, ?_⟩
          intro x hx hxp
          rcases List.mem_append.mp hx with h | h
          · exact huniq x h hxp
          · have hxT : x = T := by simpa using h
            rw [hxT, hT] at hxp
            simp [newTask] at hxp
        · show ∀ r ∈ s.db.tasks ++ [T], ∃ u ∈ s.db.users.map gc, u.id = r.user_id
          intro r hr
          rcases List.mem_append.mp hr with h | h
          · obtain ⟨u, hu', huid⟩ := hs.owners r h
            exact ⟨gc u, List.mem_map_of_mem gc hu', by rw [hgcid u, huid]⟩
          · have hrT : r = T := by simpa using h
            refine ⟨gc user, List.mem_map_of_mem gc humem, ?_⟩
            rw [hgcid user, hrT, hT]
            rfl
        · show ((s.db.users.map gc).map User.id).Nodup
          rw [map_user_id_of_preserve _ gc hgcid]
          exact hs.uNodup
        · show List.Forall₂ _ init.db.users (s.db.users.map gc)
          refine forall2_map_right_mem gc hs.usersInv ?_
          rintro a b ha hb ⟨hid, hcode, hcredb, heq, hminb⟩
          by_cases h : b.id = user.id
          · have hbu : b = user := List.inj_on_of_nodup_map hs.uNodup hb humem h
            have hb' : gc b = { b with video_credits := b.video_credits - 1 } := by
              rw [hgc]
              simp [h]
            refine ⟨by rw [hb']; exact hid, by rw [hb']; exact hcode, ?_, ?_, ?_⟩
            · rw [hb']
              show 0 ≤ b.video_credits - 1
              rw [hbu]
              omega
            · rw [hb', hctApp]
              show b.video_credits - 1 = a.video_credits -
                ((countTasksOf s.db a.id + if user.id = a.id then 1 else 0 : Nat) : Int)
              rw [if_pos (h.symm.trans hid)]
              push_cast
              omega
            · rw [hb', hcdApp]
              show a.minutes_left - (countDoneOf s.db a.id : Int) ≤ b.minutes_left
              exact hminb
          · have hb' : gc b = b := by
              rw [hgc]
              simp [h]
            rw [hb']
            refine ⟨hid, hcode, hcredb, ?_, ?_⟩
            · rw [hctApp, if_neg (fun he => h (hid.trans he.symm))]
              simpa using heq
            · rw [hcdApp]
              exact hminb

/-- The invariant is preserved by every step. -/
lemma inv_step {env : StageEnv} {tu : Bool} {init s s' : Sys}
    (hs : Inv init s) (h : Step env tu s s') : Inv init s' := by
  cases h with
  | submit code fname lang now hc => exact inv_submit hs code fname lang now hc
  | claim t hph ht => exact inv_claim hs hph ht
  | finish t hph => exact inv_finish hs hph
  | topup code credits htu => exact inv_topup hs code credits

/-- The invariant holds in every reachable state. -/
lemma inv_reachable {env : StageEnv} {tu : Bool} {init s : Sys}
    (hI : Initial init) (hR : Reachable env tu init s) : Inv init s := by
  induction hR with
  | refl => exact initial_inv hI
  | tail hsteps hstep ih => exact inv_step ih hstep

/-! Concrete runs are reachable. -/

lemma reach9a : Reachable env0 false init9 s9a :=
  Relation.ReflTransGen.single (Step.submit init9 "U1" "a" "fr" 0 (Nat.le_refl 0))

lemma reach9b : Reachable env0 false init9 s9b :=
  reach9a.tail (Step.submit s9a "U1" "b" "fr" 0 (Nat.le_refl 0))

lemma reach9c : Reachable env0 false init9 s9c :=
  reach9b.tail (Step.claim s9b t9a rfl (by decide))

lemma reach9d : Reachable env0 false init9 s9d :=
  reach9c.tail (Step.finish s9c t9a rfl)

lemma reach9e : Reachable env0 false init9 s9e :=
  reach9d.tail (Step.claim s9d t9b (by decide) (by decide))

lemma reach9f : Reachable env0 false init9 s9f :=
  reach9e.tail (Step.finish s9e t9b rfl)

lemma reachC2 : Reachable env0 false init9 sC2 :=
  reach9b.tail (Step.claim s9b t9b rfl (by decide))

lemma reachF9a : Reachable envFail false init9 s9a :=
  Relation.ReflTransGen.single (Step.submit init9 "U1" "a" "fr" 0 (Nat.le_refl 0))

lemma reachF9b : Reachable envFail false init9 s9b :=
  reachF9a.tail (Step.submit s9a "U1" "b" "fr" 0 (Nat.le_refl 0))

lemma reachF9c : Reachable envFail false init9 s9c :=
  reachF9b.tail (Step.claim s9b t9a rfl (by decide))

/-! Observation lemmas for theorem statements. -/

lemma get_user_by_id_decrease_minutes (db : DB) (uid uid' : Nat) (m : Int) :
    get_user_by_id (decrease_minutes db uid m) uid' =
      (get_user_by_id db uid').map
        (fun u => if u.id = uid then { u with minutes_left := u.minutes_left - m }
          else u) := by
  unfold get_user_by_id decrease_minutes
  exact find?_map_of_preserve _ _ _
    (fun x => by by_cases h : x.id = uid <;> simp [h])

lemma statusOf_update_self (db : DB) (tid : Nat) (st : String) (rp : Option String)
    (hex : ∃ r ∈ db.tasks, r.id = tid) (hn : (db.tasks.map Task.id).Nodup) :
    statusOf (update_task_status db tid st rp) tid = some st := by
  obtain ⟨r, hrm, hrid⟩ := hex
  subst hrid
  unfold statusOf update_task_status
  split
  · rw [show ({ db with tasks := db.tasks.map fun t =>
        if t.id = r.id then { t with status := st, result_path := rp } else t } : DB).tasks
        = db.tasks.map fun t =>
          if t.id = r.id then { t with status := st, result_path := rp } else t from rfl]
    rw [find?_map_of_preserve _ _ _
      (fun x => by by_cases h : x.id = r.id <;> simp [h]),
      find_task_by_id_eq db.tasks hn r hrm]
    simp
  · rw [show ({ db with tasks := db.tasks.map fun t =>
        if t.id = r.id then { t with status := st } else t } : DB).tasks
        = db.tasks.map fun t => if t.id = r.id then { t with status := st } else t
        from rfl]
    rw [find?_map_of_preserve _ _ _
      (fun x => by by_cases h : x.id = r.id <;> simp [h]),
      find_task_by_id_eq db.tasks hn r hrm]
    simp

lemma statusOf_tasks_eq {db db' : DB} (h : db'.tasks = db.tasks) (tid : Nat) :
    statusOf db' tid = statusOf db tid := by
  unfold statusOf
  rw [h]

/-! The ten claims. -/

/-- C1 (confirmed): in every reachable state of one worker context — any
interleaving of submissions, top-ups and orchestrator steps starting from
an initial state — at most one job has status processing at any instant. -/
theorem claim_C1_single_flight {env : StageEnv} {tu : Bool} {init s : Sys}
    (hI : Initial init) (hR : Reachable env tu init s) :
    countProcessing s.db ≤ 1 := by
  have hs := inv_reachable hI hR
  cases hph : s.phase with
  | idle =>
    have hempty : s.db.tasks.filter (fun t => t.status == "processing") = [] := by
      rw [List.filter_eq_nil_iff]
      intro a ha
      simp only [beq_iff_eq]
      exact hs.idleNoProc hph a ha
    unfold countProcessing
    rw [hempty]
    simp
  | busy t =>
    obtain ⟨_, huniq⟩ := hs.busyProc t hph
    unfold countProcessing
    refine length_le_one_of_const_id _ ?_ t.id ?_
    · exact (List.Sublist.map Task.id (List.filter_sublist _)).nodup hs.tNodup
    · intro x hx
      have hx' := List.mem_filter.mp hx
      exact huniq x hx'.1 (by simpa using hx'.2)

/-- Witness for C1 at a concrete reachable state with one claimed job. -/
theorem claim_C1_single_flight_witness :
    Initial init9 ∧ countProcessing sC2.db ≤ 1 :=
  ⟨by decide, claim_C1_single_flight (by decide) reachC2⟩

/-- C2 counterexample: from an initial state, two jobs submitted within
the same timestamp second are both queued with equal created_at; the
claim step may take job 2 first (the query orders by created_at only), so
job 2 is processing while the earlier submission, job 1, is still queued. -/
theorem claim_C2_counterexample :
    Initial init9 ∧ Reachable env0 false init9 sC2 ∧
      statusOf sC2.db 1 = some "queued" ∧
      statusOf sC2.db 2 = some "processing" ∧
      createdOf sC2.db 1 = createdOf sC2.db 2 :=
  ⟨by decide, reachC2, by decide, by decide, by decide⟩

/-- C2 (amended): the orchestrator claims only jobs whose submission
timestamp is minimal among queued jobs, so in every reachable state a job
that has left the queued state has a timestamp no later than every job
still queued; in particular a job with a strictly earlier timestamp
reaches processing no later.  Equal timestamps may be claimed in either
order, since the query has no secondary sort key. -/
theorem claim_C2_fifo_by_timestamp {env : StageEnv} {tu : Bool} {init s : Sys}
    (hI : Initial init) (hR : Reachable env tu init s) :
    ∀ a ∈ s.db.tasks, ∀ b ∈ s.db.tasks,
      a.status = "queued" → b.status ≠ "queued" → b.created_at ≤ a.created_at :=
  (inv_reachable hI hR).fifo

/-- Witness for the amended C2 at a state with one claimed and one queued
job. -/
theorem claim_C2_fifo_witness :
    Initial init9 ∧
      ∀ a ∈ s9d.db.tasks, ∀ b ∈ s9d.db.tasks,
        a.status = "queued" → b.status ≠ "queued" →
        b.created_at ≤ a.created_at :=
  ⟨by decide, claim_C2_fifo_by_timestamp (by decide) reach9d⟩

/-- C3 counterexample: an account with zero submission credits and
positive minutes.  The submission creates no job and decrements nothing,
but the response is a null task id, not the structured limit rejection:
the gate checks minutes_left, not video_credits. -/
theorem claim_C3_counterexample :
    user3.video_credits = 0 ∧
    (translate_video init3 "U3" "a" "fr" 0).1 ≠ SubmitResult.limitReached ∧
    (translate_video init3 "U3" "a" "fr" 0).1 = SubmitResult.taskId none ∧
    (translate_video init3 "U3" "a" "fr" 0).2.db = init3.db := by
  decide

/-- C3 (amended): submitting with zero credits never creates a job and
never decrements a credit (the database is unchanged), but the structured
limit rejection is returned only when minutes_left is also exhausted;
otherwise the caller receives a null task id. -/
theorem claim_C3_zero_credit_submit {s : Sys} {code : String} {user : User}
    (hn : (s.db.users.map User.id).Nodup)
    (hu : get_user_by_code s.db code = some user)
    (hc : user.video_credits = 0) (fname lang : String) (now : Nat) :
    (translate_video s code fname lang now).2.db = s.db ∧
    (translate_video s code fname lang now).1 =
      (if user.minutes_left ≤ 0 then SubmitResult.limitReached
        else SubmitResult.taskId none) := by
  have humem := List.mem_of_find?_eq_some hu
  have hbyid : get_user_by_id s.db user.id = some user :=
    find_by_id_eq _ hn user humem
  simp only [translate_video, hu]
  by_cases hm : user.minutes_left ≤ 0
  · simp [hm]
  · simp only [if_neg hm, add_task, hbyid, hc]
    simp [hm]

/-- Witness for the amended C3 at the concrete zero-credit account. -/
theorem claim_C3_zero_credit_witness :
    (translate_video init3 "U3" "a" "fr" 0).2.db = init3.db ∧
    (translate_video init3 "U3" "a" "fr" 0).1 =
      (if user3.minutes_left ≤ 0 then SubmitResult.limitReached
        else SubmitResult.taskId none) :=
  claim_C3_zero_credit_submit (by decide) (by decide) (by decide) "a" "fr" 0

/-- C4 (confirmed): admission bookkeeping is atomic with respect to the
interleaving: in every reachable state each account's submission-credit
balance equals its initial balance minus the number of jobs ever admitted
for it — no job without its decrement, no decrement without its job. -/
theorem claim_C4_credit_accounting {env : StageEnv} {tu : Bool} {init s : Sys}
    (hI : Initial init) (hR : Reachable env tu init s) :
    ∀ u ∈ s.db.users, ∃ u0 ∈ init.db.users, u0.id = u.id ∧
      u.video_credits = u0.video_credits - (countTasksOf s.db u.id : Int) := by
  have hs := inv_reachable hI hR
  intro u hu
  obtain ⟨u0, h0, hid, _, _, heq, _⟩ := forall2_mem_right hs.usersInv u hu
  refine ⟨u0, h0, hid.symm, ?_⟩
  rw [hid]
  exact heq

/-- Witness for C4 after two admissions from a two-credit account. -/
theorem claim_C4_credit_accounting_witness :
    Initial init9 ∧
      ∀ u ∈ s9b.db.users, ∃ u0 ∈ init9.db.users, u0.id = u.id ∧
        u.video_credits = u0.video_credits - (countTasksOf s9b.db u.id : Int) :=
  ⟨by decide, claim_C4_credit_accounting (by decide) reach9b⟩

/-- C5 (confirmed): when the claimed job finishes, a successful pipeline
marks it done and decrements the owner's minutes by exactly one, while a
failed pipeline marks it error and leaves every user row unchanged. -/
theorem claim_C5_ledger_on_completion {env : StageEnv} {tu : Bool}
    {init s : Sys} {t : Task} (hI : Initial init) (hR : Reachable env tu init s)
    (hph : s.phase = Phase.busy t) :
    (∀ f, (runPipelineW env t.video_path t.language).1 = Except.ok f →
      ∃ u, get_user_by_id s.db t.user_id = some u ∧
        get_user_by_id (finishSys env s t).db t.user_id =
          some { u with minutes_left := u.minutes_left - 1 } ∧
        statusOf (finishSys env s t).db t.id = some "done") ∧
    (∀ e, (runPipelineW env t.video_path t.language).1 = Except.error e →
      (finishSys env s t).db.users = s.db.users ∧
      statusOf (finishSys env s t).db t.id = some "error") := by
  have hs := inv_reachable hI hR
  obtain ⟨⟨r, hrm, hrid, hrst, hruid⟩, huniq⟩ := hs.busyProc t hph
  obtain ⟨u, hu, huid⟩ := hs.owners r hrm
  have hfind : get_user_by_id s.db t.user_id = some u := by
    have hf := find_by_id_eq s.db.users hs.uNodup u hu
    rw [huid, hruid] at hf
    exact hf
  constructor
  · intro f hok
    have hfs : finishSys env s t =
        { s with
          db := decrease_minutes
            (update_task_status s.db t.id "done" (some f)) t.user_id 1,
          phase := Phase.idle,
          storage := s.storage ++ (runPipelineW env t.video_path t.language).2 } := by
      unfold finishSys
      rw [hok]
    refine ⟨u, hfind, ?_, ?_⟩
    · rw [hfs]
      show get_user_by_id (decrease_minutes
        (update_task_status s.db t.id "done" (some f)) t.user_id 1) t.user_id = _
      rw [get_user_by_id_decrease_minutes]
      have : get_user_by_id (update_task_status s.db t.id "done" (some f)) t.user_id
          = some u := by
        unfold get_user_by_id
        rw [update_task_status_users]
        exact hfind
      rw [this]
      have huid' : u.id = t.user_id := by rw [huid, hruid]
      simp [huid']
    · rw [hfs]
      have := statusOf_update_self s.db t.id "done" (some f) ⟨r, hrm, hrid⟩ hs.tNodup
      rw [← this]
      exact statusOf_tasks_eq (decrease_minutes_tasks _ _ _) t.id
  · intro e herr
    have hfs : finishSys env s t =
        { s with
          db := update_task_status s.db t.id "error" none,
          phase := Phase.idle,
          storage := s.storage ++ (runPipelineW env t.video_path t.language).2 } := by
      unfold finishSys
      rw [herr]
    refine ⟨?_, ?_⟩
    · rw [hfs]
      exact update_task_status_users _ _ _ _
    · rw [hfs]
      exact statusOf_update_self s.db t.id "error" none ⟨r, hrm, hrid⟩ hs.tNodup

/-- Witness for C5: the concrete successful completion of task 1. -/
theorem claim_C5_ledger_witness :
    ∃ u, get_user_by_id s9c.db 1 = some u ∧
      get_user_by_id (finishSys env0 s9c t9a).db 1 =
        some { u with minutes_left := u.minutes_left - 1 } ∧
      statusOf (finishSys env0 s9c t9a).db 1 = some "done" :=
  (claim_C5_ledger_on_completion (by decide) reach9c rfl).1
    "final_videos/dubbed_a.mp4" (by decide)

/-- C6 (confirmed): in every reachable state a done job carries a
non-null, non-empty output reference written atomically with the status
(one UPDATE), an errored job carries a null output reference, and no step
ever changes the status or output of a job already in a terminal state. -/
theorem claim_C6_terminal_states {env : StageEnv} {tu : Bool} {init s : Sys}
    (hI : Initial init) (hR : Reachable env tu init s) :
    (∀ r ∈ s.db.tasks,
      (r.status = "done" → ∃ p, r.result_path = some p ∧ p ≠ "") ∧
      (r.status = "error" → r.result_path = none)) ∧
    ∀ s', Step env tu s s' → ∀ r ∈ s.db.tasks,
      r.status = "done" ∨ r.status = "error" →
      ∃ r' ∈ s'.db.tasks, r'.id = r.id ∧ r'.status = r.status ∧
        r'.result_path = r.result_path := by
  have hs := inv_reachable hI hR
  constructor
  · intro r hr
    refine ⟨hs.tDone r hr, fun herr => hs.tNotDone r hr ?_⟩
    rw [herr]
    decide
  · intro s' hstep r hr hterm
    cases hstep with
    | submit code fname lang now hc =>
      refine ⟨r, ?_, rfl, rfl, rfl⟩
      show r ∈ (translate_video s code fname lang now).2.db.tasks
      unfold translate_video
      cases hu : get_user_by_code s.db code with
      | none => exact hr
      | some user =>
        by_cases hm2 : user.minutes_left ≤ 0
        · simp only [if_pos hm2]
          exact hr
        · simp only [if_neg hm2]
          unfold add_task
          cases hby : get_user_by_id s.db user.id with
          | none => exact hr
          | some uu =>
            by_cases hcred : uu.video_credits ≤ 0
            · simp only [if_pos hcred]
              exact hr
            · simp only [if_neg hcred]
              exact List.mem_append_left _ hr
    | claim t hph ht =>
      obtain ⟨htm, htq, hmin⟩ := ht
      have hne : r.id ≠ t.id := by
        intro he
        have hrt : r = t := List.inj_on_of_nodup_map hs.tNodup hr htm he
        rw [hrt, htq] at hterm
        rcases hterm with h | h <;> exact absurd h (by decide)
      refine ⟨r, ?_, rfl, rfl, rfl⟩
      show r ∈ (update_task_status s.db t.id "processing" none).tasks
      rw [update_task_status_tasks_f s.db t.id "processing" none rfl]
      have hgr : (fun x =>
          if x.id = t.id then { x with status := "processing" } else x) r = r := by
        simp [hne]
      rw [← hgr]
      exact List.mem_map_of_mem _ hr
    | finish t hph =>
      obtain ⟨⟨r0, hr0m, hr0id, hr0st, _⟩, huniq⟩ := hs.busyProc t hph
      have hne : r.id ≠ t.id := by
        intro he
        have hrt : r = r0 :=
          List.inj_on_of_nodup_map hs.tNodup hr hr0m (by rw [he, hr0id])
        rw [hrt, hr0st] at hterm
        rcases hterm with h | h <;> exact absurd h (by decide)
      refine ⟨r, ?_, rfl, rfl, rfl⟩
      unfold finishSys
      cases hres : (runPipelineW env t.video_path t.language).1 with
      | ok f =>
        show r ∈ (decrease_minutes
          (update_task_status s.db t.id "done" (some f)) t.user_id 1).tasks
        rw [decrease_minutes_tasks]
        have htr : truthy (some f) = true := by
          simp [truthy, runPipelineW_fst_ok_ne_empty hres]
        rw [update_task_status_tasks_t _ _ _ _ htr]
        have hgr : (fun x => if x.id = t.id
            then { x with status := "done", result_path := some f } else x) r = r := by
          simp [hne]
        rw [← hgr]
        exact List.mem_map_of_mem _ hr
      | error e =>
        show r ∈ (update_task_status s.db t.id "error" none).tasks
        rw [update_task_status_tasks_f s.db t.id "error" none rfl]
        have hgr : (fun x =>
            if x.id = t.id then { x with status := "error" } else x) r = r := by
          simp [hne]
        rw [← hgr]
        exact List.mem_map_of_mem _ hr
    | topup code credits htu =>
      refine ⟨r, ?_, rfl, rfl, rfl⟩
      show r ∈ (cryptomus_callback s code credits).db.tasks
      unfold cryptomus_callback
      cases get_user_by_code s.db code with
      | none => exact hr
      | some user => exact hr

/-- Witness for C6 at a state holding a done job. -/
theorem claim_C6_terminal_witness :
    (∀ r ∈ s9d.db.tasks,
      (r.status = "done" → ∃ p, r.result_path = some p ∧ p ≠ "") ∧
      (r.status = "error" → r.result_path = none)) ∧
    ∀ s', Step env0 false s9d s' → ∀ r ∈ s9d.db.tasks,
      r.status = "done" ∨ r.status = "error" →
      ∃ r' ∈ s'.db.tasks, r'.id = r.id ∧ r'.status = r.status ∧
        r'.result_path = r.result_path :=
  claim_C6_terminal_states (by decide) reach9d

/-- C7 counterexample: after job 1 reaches the terminal state done, its
extracted audio, its synthesized dubbed audio and the original upload are
all still present in storage — the repository contains no deletion code. -/
theorem claim_C7_counterexample :
    Initial init9 ∧ Reachable env0 false init9 s9d ∧
      statusOf s9d.db 1 = some "done" ∧
      "audio_files/a.mp3" ∈ s9d.storage ∧
      "audio_files/dubbed_a.mp3" ∈ s9d.storage ∧
      "/tmp/uploads/a.mp4" ∈ s9d.storage :=
  ⟨by decide, reach9d, by decide, by decide, by decide, by decide⟩

/-- C7 (amended): cleanup never happens — no step of the system removes
any artifact from storage, so the transient artifacts of a job remain in
storage after the job reaches a terminal state. -/
theorem claim_C7_storage_only_grows {env : StageEnv} {tu : Bool} {s s' : Sys}
    (h : Step env tu s s') :
    ∀ p ∈ s.storage, p ∈ s'.storage := by
  cases h with
  | submit code fname lang now hc =>
    intro p hp
    show p ∈ (translate_video s code fname lang now).2.storage
    unfold translate_video
    cases get_user_by_code s.db code with
    | none => exact hp
    | some user =>
      by_cases hm2 : user.minutes_left ≤ 0
      · simp only [if_pos hm2]
        exact hp
      · simp only [if_neg hm2]
        exact List.mem_append_left _ hp
  | claim t hph ht =>
    intro p hp
    exact hp
  | finish t hph =>
    intro p hp
    unfold finishSys
    cases (runPipelineW env t.video_path t.language).1 with
    | ok f => exact List.mem_append_left _ hp
    | error e => exact List.mem_append_left _ hp
  | topup code credits htu =>
    intro p hp
    show p ∈ (cryptomus_callback s code credits).storage
    unfold cryptomus_callback
    cases get_user_by_code s.db code with
    | none => exact hp
    | some user => exact hp

/-- Witness for the amended C7 at the concrete finishing step of task 1. -/
theorem claim_C7_storage_witness :
    "/tmp/uploads/a.mp4" ∈ s9c.storage ∧
      "/tmp/uploads/a.mp4" ∈ (finishSys env0 s9c t9a).storage :=
  ⟨by decide,
    @claim_C7_storage_only_grows env0 false s9c (finishSys env0 s9c t9a)
      (@Step.finish env0 false s9c t9a rfl) "/tmp/uploads/a.mp4" (by decide)⟩

/-- C8 (confirmed): a pipeline failure of the claimed job is absorbed at
the loop boundary: the finishing step exists (the loop does not crash),
it marks exactly that job error, the worker returns to idle, and any
queued job can then be claimed, reaching processing. -/
theorem claim_C8_stage_failure_isolated {env : StageEnv} {tu : Bool}
    {init s : Sys} {t : Task} (hI : Initial init) (hR : Reachable env tu init s)
    (hph : s.phase = Phase.busy t)
    (hfail : isErr (runPipelineW env t.video_path t.language).1 = true) :
    Step env tu s (finishSys env s t) ∧
    statusOf (finishSys env s t).db t.id = some "error" ∧
    (finishSys env s t).phase = Phase.idle ∧
    ∀ u, get_next_possible (finishSys env s t).db u →
      Step env tu (finishSys env s t)
        { finishSys env s t with
          db := update_task_status (finishSys env s t).db u.id "processing" none,
          phase := Phase.busy u } ∧
      statusOf (update_task_status (finishSys env s t).db u.id "processing" none)
        u.id = some "processing" := by
  have hs := inv_reachable hI hR
  have hstep : Step env tu s (finishSys env s t) := Step.finish s t hph
  have hs' : Inv init (finishSys env s t) := inv_step hs hstep
  cases hres : (runPipelineW env t.video_path t.language).1 with
  | ok f =>
    rw [hres] at hfail
    exact absurd hfail (by simp [isErr])
  | error e =>
    have hfs : finishSys env s t =
        { s with
          db := update_task_status s.db t.id "error" none,
          phase := Phase.idle,
          storage := s.storage ++ (runPipelineW env t.video_path t.language).2 } := by
      unfold finishSys
      rw [hres]
    refine ⟨hstep, ?_, ?_, ?_⟩
    · rw [hfs]
      obtain ⟨⟨r, hrm, hrid, _, _⟩, _⟩ := hs.busyProc t hph
      exact statusOf_update_self s.db t.id "error" none ⟨r, hrm, hrid⟩ hs.tNodup
    · rw [hfs]
    · intro u hu
      have hph' : (finishSys env s t).phase = Phase.idle := by rw [hfs]
      refine ⟨Step.claim _ u hph' hu, ?_⟩
      obtain ⟨hum, huq, humin⟩ := hu
      exact statusOf_update_self _ u.id "processing" none ⟨u, hum, rfl⟩ hs'.tNodup

/-- Witness for C8: the extraction-failure run at the concrete claimed
state. -/
theorem claim_C8_stage_failure_witness :
    Step envFail false s9c (finishSys envFail s9c t9a) ∧
    statusOf (finishSys envFail s9c t9a).db 1 = some "error" := by
  have h := claim_C8_stage_failure_isolated (by decide) reachF9c rfl (by decide)
  exact ⟨h.1, h.2.1⟩

/-- C9 counterexample: starting from non-negative balances, two jobs are
admitted while minutes_left = 1 (the gate checks only at submission);
both complete, each completion decrements one minute without a floor, and
the account reaches minutes_left = -1, driven only by submissions and
orchestrator steps (no top-ups). -/
theorem claim_C9_counterexample :
    Initial init9 ∧ (∀ u ∈ init9.db.users, 0 ≤ u.minutes_left) ∧
      Reachable env0 false init9 s9f ∧
      (get_user_by_id s9f.db 1).map User.minutes_left = some (-1) :=
  ⟨by decide, by decide, reach9f, by decide⟩

/-- C9 (amended): minutes_left can go negative, but orchestrator
decrements are bounded: each account's balance never falls below its
initial minutes minus its initial credits, because at most
initial-credits jobs are ever admitted and each completed job decrements
exactly one minute (top-ups only add). -/
theorem claim_C9_minutes_lower_bound {env : StageEnv} {tu : Bool} {init s : Sys}
    (hI : Initial init) (hR : Reachable env tu init s) :
    ∀ u ∈ s.db.users, ∃ u0 ∈ init.db.users, u0.id = u.id ∧
      u0.minutes_left - u0.video_credits ≤ u.minutes_left := by
  have hs := inv_reachable hI hR
  intro u hu
  obtain ⟨u0, h0, hid, _, hcpos, heq, hmin⟩ := forall2_mem_right hs.usersInv u hu
  refine ⟨u0, h0, hid.symm, ?_⟩
  have hle : countDoneOf s.db u0.id ≤ countTasksOf s.db u0.id := by
    unfold countDoneOf countTasksOf
    refine length_filter_mono _ _ _ ?_
    intro x hx
    simp only [Bool.and_eq_true] at hx
    exact hx.1
  omega

/-- Witness for the amended C9 at the overdrawn end state. -/
theorem claim_C9_minutes_bound_witness :
    Initial init9 ∧
      ∀ u ∈ s9f.db.users, ∃ u0 ∈ init9.db.users, u0.id = u.id ∧
        u0.minutes_left - u0.video_credits ≤ u.minutes_left :=
  ⟨by decide, claim_C9_minutes_lower_bound (by decide) reach9f⟩

/-- C10 (code bug): on the same claimed task, with every stage adapter
succeeding, the main.py loop finishes the job done with an output
reference and a one-minute decrement, while the worker.py loop always
fails at its transcription line — translate_text.transcribe raises
AttributeError on every input — and finishes the job error with a null
output and no decrement.  The two loops are not behaviourally
equivalent. -/
theorem claim_C10_loop_divergence :
    statusOf (finishSys env0 s9c t9a).db 1 = some "done" ∧
    resultPathOf (finishSys env0 s9c t9a).db 1 =
      some (some "final_videos/dubbed_a.mp4") ∧
    (get_user_by_id (finishSys env0 s9c t9a).db 1).map User.minutes_left =
      some 0 ∧
    statusOf (finishSysStandalone env0 s9c t9a).db 1 = some "error" ∧
    resultPathOf (finishSysStandalone env0 s9c t9a).db 1 = some none ∧
    (get_user_by_id (finishSysStandalone env0 s9c t9a).db 1).map
      User.minutes_left = some 1 ∧
    (runPipelineStandaloneW env0 t9a.video_path t9a.language).1 =
      Except.error "AttributeError: function object has no attribute transcribe" := by
  decide

end Backand
